import Mathlib

/-!
Verification of the Integrity-Coin blockchain node (Go) against its
natural-language specification.  The Go sources are shallowly embedded:
byte slices become `List Nat`, Go maps become association lists with
map semantics, `big.Int` values become `Nat`, fallible functions return
`Except String`.  SHA-256 and base58 (used from external libraries by the
repository) are implemented concretely where claims need evaluation, and
kept as function parameters where claims are hash-generic.
-/

namespace ICoin

/-- Byte strings are lists of naturals (each byte < 256 in well-formed data). -/
abbrev Bytes := List Nat

/-- big.Int SetBytes: interpret a byte slice as a big-endian unsigned integer. -/
def beNat (bs : Bytes) : Nat := bs.foldl (fun a b => a * 256 + b) 0

/-- 32 zero bytes (make([]byte, 32)). -/
def zeros32 : Bytes := List.replicate 32 0

/-- internal/tx TxOutput: value in satoshis and the recipient pubkey hash. -/
structure TxOutput where
  value : Int
  pubKeyHash : Bytes
deriving DecidableEq

/-- internal/tx TxInput: reference to a previous output plus witness data.
Go distinguishes a nil TxID (coinbase) from a non-nil one; hence `Option`. -/
structure TxInput where
  txID : Option Bytes
  outIndex : Int
  signature : Bytes
  pubKey : Bytes
deriving DecidableEq

/-- internal/tx Transaction. -/
structure Transaction where
  id : Bytes
  inputs : List TxInput
  outputs : List TxOutput
deriving DecidableEq

/-- Transaction.IsCoinbase: one input with nil TxID and OutIndex -1. -/
def Transaction.isCoinbase (t : Transaction) : Bool :=
  match t.inputs with
  | [i] => decide (i.txID = none ∧ i.outIndex = -1)
  | _ => false

/-- Go passes input.TxID ([]byte, possibly nil) where a map key is needed;
nil and the empty slice both convert to the empty string key. -/
def keyOf : Option Bytes → Bytes
  | none => []
  | some b => b

/-- internal/utxo UTXOSet: Go map[string][]TxOutput keyed by tx id,
embedded as an association list with unique keys. -/
structure UTXOSet where
  utxos : List (Bytes × List TxOutput)
deriving DecidableEq

/-- NewUTXOSet. -/
def newUTXOSet : UTXOSet := ⟨[]⟩

/-- Association-list read: first binding of the key. -/
def lookupL (k : Bytes) : List (Bytes × List TxOutput) → Option (List TxOutput)
  | [] => none
  | (k₀, v₀) :: rest => if k₀ = k then some v₀ else lookupL k rest

/-- Association-list write: replace the binding in place or append a new one
(Go map assignment). -/
def setKeyL (k : Bytes) (v : List TxOutput) :
    List (Bytes × List TxOutput) → List (Bytes × List TxOutput)
  | [] => [(k, v)]
  | (k₀, v₀) :: rest => if k₀ = k then (k, v) :: rest else (k₀, v₀) :: setKeyL k v rest

/-- Association-list delete (Go map delete). -/
def delKeyL (k : Bytes) : List (Bytes × List TxOutput) → List (Bytes × List TxOutput)
  | [] => []
  | (k₀, v₀) :: rest => if k₀ = k then rest else (k₀, v₀) :: delKeyL k rest

/-- Map read u.UTXOs[key]. -/
def UTXOSet.lookup (u : UTXOSet) (k : Bytes) : Option (List TxOutput) :=
  lookupL k u.utxos

/-- Map write u.UTXOs[key] = outputs (also UTXOSet.AddUTXO). -/
def UTXOSet.addUTXO (u : UTXOSet) (k : Bytes) (outs : List TxOutput) : UTXOSet :=
  ⟨setKeyL k outs u.utxos⟩

/-- Map delete delete(u.UTXOs, key). -/
def UTXOSet.delKey (u : UTXOSet) (k : Bytes) : UTXOSet :=
  ⟨delKeyL k u.utxos⟩

/-- UTXOSet.RemoveUTXO: splice the output at `index` out of the slice stored
under `txID`; drop the key when the slice empties. -/
def UTXOSet.removeUTXO (u : UTXOSet) (k : Bytes) (i : Int) : Except String UTXOSet :=
  match u.lookup k with
  | none => .error "UTXO not found"
  | some outs =>
    if i < 0 ∨ (outs.length : Int) ≤ i then .error "invalid output index"
    else
      let outs' := outs.eraseIdx i.toNat
      if outs' = [] then .ok (u.delKey k) else .ok (u.addUTXO k outs')

/-- UTXOSet.FindUTXO. -/
def UTXOSet.findUTXO (u : UTXOSet) (k : Bytes) (i : Int) : Except String TxOutput :=
  match u.lookup k with
  | none => .error "transaction not found"
  | some outs =>
    if i < 0 ∨ (outs.length : Int) ≤ i then .error "invalid output index"
    else .ok (outs.getD i.toNat ⟨0, []⟩)

/-- The input-removal loop of UTXOSet.Update.  On the first failing removal the
Go method returns the wrapped error; removals already performed persist in the
receiver, so the pair carries the (possibly mutated) state alongside the error. -/
def UTXOSet.updateLoop (u : UTXOSet) : List TxInput → Option String × UTXOSet
  | [] => (none, u)
  | inp :: rest =>
    match u.removeUTXO (keyOf inp.txID) inp.outIndex with
    | .error e => (some ("failed to remove UTXO: " ++ e), u)
    | .ok u' => u'.updateLoop rest

/-- UTXOSet.Update: for non-coinbase remove every referenced input in order,
then store the transaction's outputs under its id. -/
def UTXOSet.update (u : UTXOSet) (t : Transaction) : Option String × UTXOSet :=
  if t.isCoinbase then (none, u.addUTXO t.id t.outputs)
  else
    match u.updateLoop t.inputs with
    | (some e, u') => (some e, u')
    | (none, u') => (none, u'.addUTXO t.id t.outputs)

/-! ## Block headers, hashing and proof-of-work (pkg/types, internal/crypto, internal/pow) -/

/-- Little-endian encoding of `n` on `width` bytes (binary.Write LittleEndian). -/
def le (width : Nat) (n : Nat) : Bytes :=
  (List.range width).map (fun k => n / 256 ^ k % 256)

/-- Little-endian uint32. -/
def leU32 (n : Nat) : Bytes := le 4 n

/-- Little-endian int64 (two's complement), as binary.Write emits Unix seconds. -/
def leI64 (i : Int) : Bytes := le 8 ((i % (2 : Int) ^ 64).toNat)

/-- pkg/types BlockHeader.  Go stores a time.Time; serialisation and validation
only consume its Unix seconds, so the timestamp is embedded as that integer. -/
structure BlockHeader where
  version : Nat
  prevBlockHash : Bytes
  merkleRoot : Bytes
  timestamp : Int
  difficultyTarget : Nat
  nonce : Nat
deriving DecidableEq

/-- BlockHeader.Serialize: version, prev hash, merkle root, 8-byte Unix
timestamp, difficulty bits, nonce — integers little-endian. -/
def BlockHeader.serialize (h : BlockHeader) : Bytes :=
  leU32 h.version ++ h.prevBlockHash ++ h.merkleRoot ++
    leI64 h.timestamp ++ leU32 h.difficultyTarget ++ leU32 h.nonce

/-- pkg/types Block: header, transactions and the cached hash field. -/
structure Block where
  header : BlockHeader
  transactions : List Transaction
  hash : Bytes
deriving DecidableEq

/-- crypto.DoubleHashBytes, parametric in the external SHA-256 routine. -/
def doubleHashBytes (sha : Bytes → Bytes) (d : Bytes) : Bytes := sha (sha d)

/-- crypto.HashBlockHeader: double SHA-256 of the canonical serialisation. -/
def hashBlockHeader (sha : Bytes → Bytes) (h : BlockHeader) : Bytes :=
  doubleHashBytes sha h.serialize

/-- pow.MaxNonce = math.MaxUint32. -/
def MaxNonce : Nat := 4294967295

/-- pow.DefaultTargetBits. -/
def DefaultTargetBits : Nat := 16

/-- pow.NewProofOfWork target: big.NewInt(1) shifted left by 256 - targetBits.
The block's own DifficultyTarget field supplies targetBits. -/
def powTarget (bits : Nat) : Nat := 1 <<< (256 - bits)

/-- ProofOfWork.Validate: header hash as big-endian integer strictly below the
target derived from the block's own difficulty field. -/
def powValidate (sha : Bytes → Bytes) (b : Block) : Bool :=
  decide (beNat (hashBlockHeader sha b.header) < powTarget b.header.difficultyTarget)

/-- pow.IsValidHash. -/
def isValidHash (hash : Bytes) (difficultyTarget : Nat) : Bool :=
  decide (beNat hash < powTarget difficultyTarget)

/-- The nonce loop of ProofOfWork.Mine: while nonce < MaxNonce, hash the header
at the current nonce, stop on success, else advance.  `fuel` counts the
iterations left before the Go guard fails; the running `lastHash` models the
hash variable that survives the loop when the nonce space saturates. -/
def mineLoop (hashAt : Nat → Bytes) (target : Nat) : Nat → Nat → Bytes → Nat × Bytes
  | 0, nonce, lastHash => (nonce, lastHash)
  | fuel + 1, nonce, _ =>
    let h := hashAt nonce
    if beNat h < target then (nonce, h) else mineLoop hashAt target fuel (nonce + 1) h

/-- ProofOfWork.Mine: nonce starts at 0; hash starts nil. -/
def mine (hashAt : Nat → Bytes) (target : Nat) : Nat × Bytes :=
  mineLoop hashAt target MaxNonce 0 []

/-- Mine on a block: the header is rehashed at each candidate nonce, against
the target of the block's own difficulty field. -/
def mineBlock (sha : Bytes → Bytes) (b : Block) : Nat × Bytes :=
  mine (fun n => hashBlockHeader sha { b.header with nonce := n })
    (powTarget b.header.difficultyTarget)

/-! ## Merkle root (internal/merkle) -/

/-- One pass of the inner for-loop of BuildMerkleRoot: hash adjacent pairs.
The single-element arm is unreachable because the caller pads to even length. -/
def merklePairUp (dh : Bytes → Bytes) : List Bytes → List Bytes
  | a :: b :: rest => dh (a ++ b) :: merklePairUp dh rest
  | _ => []

/-- One iteration of the while-loop: duplicate the last element when the level
has odd length, then combine adjacent pairs. -/
def merkleStep (dh : Bytes → Bytes) (l : List Bytes) : List Bytes :=
  merklePairUp dh (if l.length % 2 = 1 then l ++ [l.getLastD []] else l)

/-- The while-loop of BuildMerkleRoot, with the level length as fuel (each
iteration strictly shrinks the level, so the fuel never runs out on the
code path; merkleRoot_spec proves the fuel is sufficient). -/
def merkleLoopF (dh : Bytes → Bytes) : Nat → List Bytes → Bytes
  | 0, l => l.headD []
  | fuel + 1, l => if l.length ≤ 1 then l.headD [] else merkleLoopF dh fuel (merkleStep dh l)

/-- merkle.BuildMerkleRoot: 32 zero bytes for the empty list, else the
while-loop until one element remains. -/
def buildMerkleRoot (dh : Bytes → Bytes) (txHashes : List Bytes) : Bytes :=
  if txHashes = [] then zeros32 else merkleLoopF dh txHashes.length txHashes

/-! ## Chain engine (internal/blockchain) -/

/-- internal/blockchain Blockchain, restricted to the fields block validation
and the query surface read: the applied blocks and the engine's in-memory
difficulty. -/
structure Blockchain where
  blocks : List Block
  difficultyTarget : Nat
deriving DecidableEq

/-- Hash of bc.Blocks[len-1] (empty chain gives the empty slice). -/
def lastHashOf (bs : List Block) : Bytes := (bs.map Block.hash).getLastD []

/-- Placeholder transaction for unreachable head lookups. -/
def dfltTx : Transaction := ⟨[], [], []⟩

/-- Blockchain.ValidateBlock: the seven checks, in source order — proof-of-work
against the block's own difficulty field, cached hash, merkle root over the
stored transaction ids, predecessor linkage, timestamp bound (`now` models
time.Now in Unix seconds), non-empty transactions with the coinbase first, and
no second coinbase.  No value-conservation check appears. -/
def Blockchain.validateBlock (sha : Bytes → Bytes) (bc : Blockchain) (now : Int)
    (b : Block) : Except String Unit :=
  if powValidate sha b = false then .error "invalid proof-of-work"
  else if hashBlockHeader sha b.header ≠ b.hash then .error "block hash mismatch"
  else if buildMerkleRoot (doubleHashBytes sha) (b.transactions.map (·.id)) ≠
      b.header.merkleRoot then .error "merkle root mismatch"
  else if bc.blocks ≠ [] ∧ b.header.prevBlockHash ≠ lastHashOf bc.blocks then
    .error "previous block hash mismatch"
  else if b.header.timestamp > now + 7200 then .error "block timestamp too far in future"
  else if b.transactions = [] then .error "block has no transactions"
  else if (b.transactions.headD dfltTx).isCoinbase = false then
    .error "first transaction is not coinbase"
  else if (b.transactions.drop 1).any (·.isCoinbase) then
    .error "multiple coinbase transactions"
  else .ok ()

/-- Sum of a transaction's own output values. -/
def txOutputSum (t : Transaction) : Int := (t.outputs.map (·.value)).sum

/-- Sum of the values of the previous outputs referenced by a transaction's
inputs, resolved in a UTXO set — the quantity value conservation compares
against the transaction's own output sum. -/
def referencedInputSum (u : UTXOSet) : List TxInput → Except String Int
  | [] => .ok 0
  | i :: rest =>
    match u.findUTXO (keyOf i.txID) i.outIndex with
    | .error e => .error e
    | .ok o => (referencedInputSum u rest).map (o.value + ·)

/-- Replace every output value of a transaction (ids and inputs untouched). -/
def Transaction.mapOutputValues (f : Int → Int) (t : Transaction) : Transaction :=
  { t with outputs := t.outputs.map (fun o => { o with value := f o.value }) }

/-- Replace every output value in every transaction of a block. -/
def Block.mapOutputValues (f : Int → Int) (b : Block) : Block :=
  { b with transactions := b.transactions.map (Transaction.mapOutputValues f) }

/-! ## Query surface (internal/blockchain lookups, internal/grpc server) -/

/-- Placeholder block for the bounds-checked index read. -/
def dfltBlock : Block := ⟨⟨0, [], [], 0, 0, 0⟩, [], []⟩

/-- Blockchain.Height: len(bc.Blocks), a Go int. -/
def Blockchain.height (bc : Blockchain) : Int := bc.blocks.length

/-- Blockchain.GetBlock: fails outside [0, len(bc.Blocks)). -/
def Blockchain.getBlock (bc : Blockchain) (i : Int) : Except String Block :=
  if i < 0 ∨ (bc.blocks.length : Int) ≤ i then .error "block index out of range"
  else .ok (bc.blocks.getD i.toNat dfltBlock)

/-- One hex digit, lowercase, as fmt %x prints. -/
def hexDigit (n : Nat) : Char := Char.ofNat (if n < 10 then 48 + n else 87 + n)

/-- fmt.Sprintf %x of a byte slice (empty slice prints as the empty string). -/
def hexOfBytes (bs : Bytes) : String :=
  String.mk (bs.foldr (fun b acc => hexDigit (b / 16 % 16) :: hexDigit (b % 16) :: acc) [])

/-- Server.GetBestBlockHash: looks up the block at index Height() and formats
its hash; the lookup error propagates. -/
def getBestBlockHash (bc : Blockchain) : Except String String :=
  match bc.getBlock bc.height with
  | .error e => .error ("failed to get best block: " ++ e)
  | .ok b => .ok (hexOfBytes b.hash)

/-- The best-block-hash field assembled by Server.GetBlockchainInfo: the
GetBlock(Height()) error is discarded and a nil block leaves the string empty. -/
def getBlockchainInfoBestHash (bc : Blockchain) : String :=
  match bc.getBlock bc.height with
  | .ok b => hexOfBytes b.hash
  | .error _ => ""

/-! ## Signature serialisation (internal/crypto Wallet.Sign / VerifySignature) -/

/-- Digit loop of the minimal big-endian encoding; the fuel only bounds the
recursion depth (one unit per emitted byte) and n itself is always enough. -/
def natToBEbytesAux : Nat → Nat → Bytes
  | 0, _ => []
  | fuel + 1, n => if n = 0 then [] else natToBEbytesAux fuel (n / 256) ++ [n % 256]

/-- big.Int.Bytes(): minimal big-endian encoding, empty for zero. -/
def natToBEbytes (n : Nat) : Bytes := natToBEbytesAux n n

/-- Wallet.Sign signature assembly: append(r.Bytes(), s.Bytes()...) —
minimal-width halves, no padding. -/
def signSerialize (r s : Nat) : Bytes := natToBEbytes r ++ natToBEbytes s

/-- VerifySignature scalar recovery: reject signatures shorter than 32 bytes,
else SetBytes each half of the split at len/2. -/
def verifySplit (sig : Bytes) : Option (Nat × Nat) :=
  if sig.length < 32 then none
  else some (beNat (sig.take (sig.length / 2)), beNat (sig.drop (sig.length / 2)))

/-- Modelled from the spec: signature serialisation at a fixed 64-byte width,
each scalar zero-padded on the high end to 32 bytes (the repository's
Wallet.Sign does not implement this; the definition exists for comparison). -/
def pad32 (n : Nat) : Bytes :=
  List.replicate (32 - (natToBEbytes n).length) 0 ++ natToBEbytes n

/-- Modelled from the spec: fixed-width 64-byte signature serialisation. -/
def signSerializeSpec (r s : Nat) : Bytes := pad32 r ++ pad32 s

/-! ## SHA-256 (the external crypto/sha256 routine the repository calls),
implemented concretely so checksum-dependent claims evaluate on real digests. -/

namespace SHA256

/-- Round constants. -/
def K : List Nat := [1116352408, 1899447441, 3049323471, 3921009573, 961987163,
  1508970993, 2453635748, 2870763221, 3624381080, 310598401, 607225278,
  1426881987, 1925078388, 2162078206, 2614888103, 3248222580, 3835390401,
  4022224774, 264347078, 604807628, 770255983, 1249150122, 1555081692,
  1996064986, 2554220882, 2821834349, 2952996808, 3210313671, 3336571891,
  3584528711, 113926993, 338241895, 666307205, 773529912, 1294757372,
  1396182291, 1695183700, 1986661051, 2177026350, 2456956037, 2730485921,
  2820302411, 3259730800, 3345764771, 3516065817, 3600352804, 4094571909,
  275423344, 430227734, 506948616, 659060556, 883997877, 958139571,
  1322822218, 1537002063, 1747873779, 1955562222, 2024104815, 2227730452,
  2361852424, 2428436474, 2756734187, 3204031479, 3329325298]

/-- Initial hash state. -/
def H0 : List Nat := [1779033703, 3144134277, 1013904242, 2773480762,
  1359893119, 2600822924, 528734635, 1541459225]

/-- Truncate to 32 bits. -/
def m32 (x : Nat) : Nat := x % 4294967296

/-- Rotate a 32-bit word right by n. -/
def rotr (n x : Nat) : Nat := m32 ((x >>> n) ||| (x <<< (32 - n)))

def smallSigma0 (w : Nat) : Nat := rotr 7 w ^^^ rotr 18 w ^^^ (w >>> 3)

def smallSigma1 (w : Nat) : Nat := rotr 17 w ^^^ rotr 19 w ^^^ (w >>> 10)

def bigSigma0 (a : Nat) : Nat := rotr 2 a ^^^ rotr 13 a ^^^ rotr 22 a

def bigSigma1 (e : Nat) : Nat := rotr 6 e ^^^ rotr 11 e ^^^ rotr 25 e

def ch (e f g : Nat) : Nat := (e &&& f) ^^^ ((4294967295 ^^^ e) &&& g)

def maj (a b c : Nat) : Nat := (a &&& b) ^^^ (a &&& c) ^^^ (b &&& c)

/-- Big-endian 64-bit length field of the padding. -/
def be64 (n : Nat) : Bytes := (List.range 8).map (fun k => n / 256 ^ (7 - k) % 256)

/-- FIPS 180-4 padding: 0x80, zeros to 56 mod 64, 64-bit bit length. -/
def padMsg (msg : Bytes) : Bytes :=
  msg ++ 128 :: List.replicate ((64 - (msg.length + 9) % 64) % 64) 0 ++
    be64 (8 * msg.length)

/-- Big-endian 32-bit words of a 64-byte chunk. -/
def toWords : Bytes → List Nat
  | b0 :: b1 :: b2 :: b3 :: rest => (((b0 * 256 + b1) * 256 + b2) * 256 + b3) :: toWords rest
  | _ => []

/-- Message-schedule extension from 16 to 64 words. -/
def extendW : Nat → List Nat → List Nat
  | 0, w => w
  | fuel + 1, w =>
    let n := w.length
    extendW fuel (w ++ [m32 (smallSigma1 (w.getD (n - 2) 0) + w.getD (n - 7) 0 +
      smallSigma0 (w.getD (n - 15) 0) + w.getD (n - 16) 0)])

/-- Working state a..h. -/
structure St where
  a : Nat
  b : Nat
  c : Nat
  d : Nat
  e : Nat
  f : Nat
  g : Nat
  h : Nat

/-- One compression round. -/
def roundFn (s : St) (kI wI : Nat) : St :=
  let t1 := m32 (s.h + bigSigma1 s.e + ch s.e s.f s.g + kI + wI)
  let t2 := m32 (bigSigma0 s.a + maj s.a s.b s.c)
  ⟨m32 (t1 + t2), s.a, s.b, s.c, m32 (s.d + t1), s.e, s.f, s.g⟩

/-- Compress one 64-byte chunk into the running hash state. -/
def compressBlock (hs : List Nat) (chunk : Bytes) : List Nat :=
  let w := extendW 48 (toWords chunk)
  let i0 : St := ⟨hs.getD 0 0, hs.getD 1 0, hs.getD 2 0, hs.getD 3 0,
    hs.getD 4 0, hs.getD 5 0, hs.getD 6 0, hs.getD 7 0⟩
  let fin := (K.zip w).foldl (fun s kw => roundFn s kw.1 kw.2) i0
  [m32 (hs.getD 0 0 + fin.a), m32 (hs.getD 1 0 + fin.b), m32 (hs.getD 2 0 + fin.c),
   m32 (hs.getD 3 0 + fin.d), m32 (hs.getD 4 0 + fin.e), m32 (hs.getD 5 0 + fin.f),
   m32 (hs.getD 6 0 + fin.g), m32 (hs.getD 7 0 + fin.h)]

/-- Chunking loop; the fuel only bounds the recursion depth (one unit per
chunk) and the byte length is always enough. -/
def chunk64Aux : Nat → Bytes → List Bytes
  | 0, _ => []
  | fuel + 1, bs => if bs = [] then [] else bs.take 64 :: chunk64Aux fuel (bs.drop 64)

/-- Split into 64-byte chunks. -/
def chunk64 (bs : Bytes) : List Bytes := chunk64Aux bs.length bs

/-- Big-endian bytes of one state word. -/
def be4 (n : Nat) : Bytes :=
  [n / 16777216 % 256, n / 65536 % 256, n / 256 % 256, n % 256]

/-- SHA-256 digest of a byte string. -/
def hash (msg : Bytes) : Bytes :=
  (((chunk64 (padMsg msg)).foldl compressBlock H0).map be4).flatten

end SHA256

/-! ## Addresses (internal/crypto wallet.go; base58 is the external
mr-tron/base58 library the repository calls) -/

/-- The base58 alphabet. -/
def b58Alphabet : List Char :=
  "123456789ABCDEFGHJKLMNPQRSTUVWXYZabcdefghijkmnopqrstuvwxyz".data

/-- Digit value of a base58 character. -/
def b58Value (c : Char) : Option Nat := b58Alphabet.findIdx? (fun x => x == c)

/-- Accumulate the base-58 positional value of a digit string. -/
def base58Loop : List Char → Nat → Option Nat
  | [], acc => some acc
  | c :: rest, acc =>
    match b58Value c with
    | none => none
    | some v => base58Loop rest (acc * 58 + v)

/-- base58.Decode: invalid digits fail; leading 1-digits decode to leading
zero bytes before the minimal big-endian bytes of the positional value. -/
def base58Decode (s : String) : Except String Bytes :=
  match base58Loop s.data 0 with
  | none => .error "invalid base58 digit"
  | some n =>
    .ok (List.replicate (s.data.takeWhile (fun c => c == '1')).length 0 ++ natToBEbytes n)

/-- crypto.Checksum: first 4 bytes of the double SHA-256 of the payload. -/
def checksum (payload : Bytes) : Bytes := (SHA256.hash (SHA256.hash payload)).take 4

/-- crypto.DecodeAddress: base58-decode, require at least ChecksumLength+1 = 5
bytes, verify the trailing 4-byte checksum of the leading payload, and return
the payload with the version byte stripped. -/
def decodeAddress (addr : String) : Except String Bytes :=
  match base58Decode addr with
  | .error e => .error ("failed to decode address: " ++ e)
  | .ok decoded =>
    if decoded.length < 5 then .error "invalid address length"
    else
      let payload := decoded.take (decoded.length - 4)
      let ckProvided := decoded.drop (decoded.length - 4)
      if checksum payload = ckProvided then .ok (payload.drop 1)
      else .error "invalid address checksum"

/-- Decidable equality on Except, so concrete results evaluate with decide. -/
instance {ε α : Type} [DecidableEq ε] [DecidableEq α] : DecidableEq (Except ε α) := fun a b =>
  match a, b with
  | .error e, .error f => decidable_of_iff (e = f) (by simp)
  | .ok x, .ok y => decidable_of_iff (x = y) (by simp)
  | .error _, .ok _ => .isFalse (fun hc => Except.noConfusion hc)
  | .ok _, .error _ => .isFalse (fun hc => Except.noConfusion hc)

/-! ## Association-list lemmas for the UTXO map -/

theorem lookup_addUTXO_self (u : UTXOSet) (k : Bytes) (v : List TxOutput) :
    (u.addUTXO k v).lookup k = some v := by
  unfold UTXOSet.lookup UTXOSet.addUTXO
  induction u.utxos with
  | nil => simp [lookupL, setKeyL]
  | cons x xs ih =>
    by_cases hx : x.1 = k
    · simp [lookupL, setKeyL, hx]
    · simpa [lookupL, setKeyL, hx] using ih

theorem lookup_addUTXO_ne (u : UTXOSet) (k k' : Bytes) (v : List TxOutput)
    (hne : k' ≠ k) : (u.addUTXO k v).lookup k' = u.lookup k' := by
  unfold UTXOSet.lookup UTXOSet.addUTXO
  have hkk : ¬ (k = k') := fun hc => hne hc.symm
  induction u.utxos with
  | nil => simp [lookupL, setKeyL, hkk]
  | cons x xs ih =>
    by_cases hx : x.1 = k
    · have hx' : ¬ x.1 = k' := by rw [hx]; exact hkk
      simp [lookupL, setKeyL, hx, hx', hkk]
    · by_cases hk' : x.1 = k'
      · simp [lookupL, setKeyL, hx, hk', hne]
      · simpa [lookupL, setKeyL, hx, hk'] using ih

theorem lookup_delKey_ne (u : UTXOSet) (k k' : Bytes) (hne : k' ≠ k) :
    (u.delKey k).lookup k' = u.lookup k' := by
  unfold UTXOSet.lookup UTXOSet.delKey
  have hkk : ¬ (k = k') := fun hc => hne hc.symm
  induction u.utxos with
  | nil => simp [delKeyL]
  | cons x xs ih =>
    by_cases hx : x.1 = k
    · have hx' : ¬ x.1 = k' := by rw [hx]; exact hkk
      simp [delKeyL, lookupL, hx, hx', hkk]
    · by_cases hk' : x.1 = k'
      · simp [delKeyL, lookupL, hx, hk', hne]
      · simpa [delKeyL, lookupL, hx, hk'] using ih

theorem getD_eraseIdx_of_lt {α : Type} (l : List α) (i j : Nat) (d : α)
    (hij : i < j) (hj : j < l.length) :
    (l.eraseIdx i).getD (j - 1) d = l.getD j d := by
  induction l generalizing i j with
  | nil => simp at hj
  | cons x xs ih =>
    cases i with
    | zero =>
      obtain ⟨j', rfl⟩ : ∃ j', j = j' + 1 := ⟨j - 1, by omega⟩
      simp [List.eraseIdx, List.getD]
    | succ i' =>
      obtain ⟨j', rfl⟩ : ∃ j', j = j' + 1 := ⟨j - 1, by omega⟩
      have hj' : j' < xs.length := by simpa using hj
      have hij' : i' < j' := by omega
      obtain ⟨j'', rfl⟩ : ∃ j'', j' = j'' + 1 := ⟨j' - 1, by omega⟩
      have := ih i' (j'' + 1) hij' hj'
      simpa [List.eraseIdx, List.getD] using this

/-! ## C1: UTXO index evolution under block application -/

/-- C1 counterexample: applying a transaction that spends output 0 of a
two-output transaction does not leave the other output reachable under its
original out_index key 1 — the stored slice is spliced, so the surviving
output moves to index 0 and key (t, 1) resolves to an error. -/
theorem utxo_original_outIndex_lost :
    ((⟨[([116], [⟨100, [1]⟩, ⟨200, [2]⟩])]⟩ : UTXOSet).update
        ⟨[110], [⟨some [116], 0, [], []⟩], [⟨50, [3]⟩]⟩).1 = none ∧
    ((⟨[([116], [⟨100, [1]⟩, ⟨200, [2]⟩])]⟩ : UTXOSet).update
        ⟨[110], [⟨some [116], 0, [], []⟩], [⟨50, [3]⟩]⟩).2.findUTXO [116] 1 =
      .error "invalid output index" ∧
    ((⟨[([116], [⟨100, [1]⟩, ⟨200, [2]⟩])]⟩ : UTXOSet).update
        ⟨[110], [⟨some [116], 0, [], []⟩], [⟨50, [3]⟩]⟩).2.findUTXO [116] 0 =
      .ok ⟨200, [2]⟩ := by
  decide

/-- C1 amended: applying a transaction removes each consumed (prev_tx_id,
out_index) by splicing the stored output list and adds the transaction's
outputs under its id; a surviving output originally at index j > i of a
partially spent transaction is re-keyed to j - 1, not kept at its original
out_index. -/
theorem update_shifts_remaining_outputs
    (u : UTXOSet) (t : Bytes) (outs : List TxOutput) (i j : Nat)
    (tx : Transaction) (inp : TxInput)
    (h1 : u.lookup t = some outs)
    (h3 : tx.inputs = [inp]) (h4 : inp.txID = some t)
    (h5 : inp.outIndex = (i : Int)) (h6 : tx.id ≠ t)
    (hij : i < j) (hj : j < outs.length) :
    (u.update tx).1 = none ∧
    (u.update tx).2.lookup tx.id = some tx.outputs ∧
    (u.update tx).2.lookup t = some (outs.eraseIdx i) ∧
    (u.update tx).2.findUTXO t ((j : Int) - 1) = .ok (outs.getD j ⟨0, []⟩) := by
  have hcb : tx.isCoinbase = false := by
    unfold Transaction.isCoinbase
    rw [h3]
    simp [h4]
  have hi : i < outs.length := by omega
  have herase : outs.eraseIdx ((i : Int)).toNat = outs.eraseIdx i := by
    norm_num
  have hlenE : (outs.eraseIdx i).length = outs.length - 1 := by
    rw [List.length_eraseIdx]
    simp [hi]
  have hneE : outs.eraseIdx i ≠ [] := by
    intro hc
    rw [hc] at hlenE
    simp at hlenE
    omega
  have hrem : u.removeUTXO t (i : Int) = .ok (u.addUTXO t (outs.eraseIdx i)) := by
    unfold UTXOSet.removeUTXO
    rw [h1]
    dsimp only
    have hcond : ¬ ((i : Int) < 0 ∨ (outs.length : Int) ≤ (i : Int)) := by
      push_neg
      constructor
      · exact Int.ofNat_nonneg i
      · exact_mod_cast hi
    rw [if_neg hcond]
    simp only [herase, hneE, if_neg]
    simp [hneE]
  have hupd : u.update tx =
      (none, (u.addUTXO t (outs.eraseIdx i)).addUTXO tx.id tx.outputs) := by
    unfold UTXOSet.update
    rw [hcb]
    simp only [Bool.false_eq_true, if_false]
    rw [h3]
    unfold UTXOSet.updateLoop
    rw [h4, h5]
    simp only [keyOf]
    rw [hrem]
    rfl
  refine ⟨by rw [hupd], ?_, ?_, ?_⟩
  · rw [hupd]
    exact lookup_addUTXO_self _ _ _
  · rw [hupd]
    rw [lookup_addUTXO_ne _ _ _ _ (Ne.symm h6)]
    exact lookup_addUTXO_self _ _ _
  · have hlk : (u.update tx).2.lookup t = some (outs.eraseIdx i) := by
      rw [hupd]
      rw [lookup_addUTXO_ne _ _ _ _ (Ne.symm h6)]
      exact lookup_addUTXO_self _ _ _
    unfold UTXOSet.findUTXO
    rw [hlk]
    dsimp only
    have hcond : ¬ ((j : Int) - 1 < 0 ∨ ((outs.eraseIdx i).length : Int) ≤ (j : Int) - 1) := by
      rw [hlenE]
      push_neg
      omega
    rw [if_neg hcond]
    have htn : ((j : Int) - 1).toNat = j - 1 := by omega
    rw [htn]
    have := getD_eraseIdx_of_lt outs i j (⟨0, []⟩ : TxOutput) hij hj
    rw [List.getD, List.getD] at this ⊢
    rw [this]

/-- C1 witness: the amended theorem applied to a three-output transaction with
output 0 spent — the survivor originally at index 1 answers at key index 0. -/
theorem update_shifts_remaining_outputs_witness :
    ((⟨[([116], [⟨1, []⟩, ⟨2, []⟩, ⟨3, []⟩])]⟩ : UTXOSet).lookup [116] =
        some [⟨1, []⟩, ⟨2, []⟩, ⟨3, []⟩] ∧
      ([110] : Bytes) ≠ [116] ∧ 0 < 1 ∧ 1 < 3) ∧
    ((⟨[([116], [⟨1, []⟩, ⟨2, []⟩, ⟨3, []⟩])]⟩ : UTXOSet).update
        ⟨[110], [⟨some [116], 0, [], []⟩], [⟨9, []⟩]⟩).1 = none ∧
    ((⟨[([116], [⟨1, []⟩, ⟨2, []⟩, ⟨3, []⟩])]⟩ : UTXOSet).update
        ⟨[110], [⟨some [116], 0, [], []⟩], [⟨9, []⟩]⟩).2.lookup [110] = some [⟨9, []⟩] ∧
    ((⟨[([116], [⟨1, []⟩, ⟨2, []⟩, ⟨3, []⟩])]⟩ : UTXOSet).update
        ⟨[110], [⟨some [116], 0, [], []⟩], [⟨9, []⟩]⟩).2.lookup [116] =
      some ([⟨1, []⟩, ⟨2, []⟩, ⟨3, []⟩].eraseIdx 0) ∧
    ((⟨[([116], [⟨1, []⟩, ⟨2, []⟩, ⟨3, []⟩])]⟩ : UTXOSet).update
        ⟨[110], [⟨some [116], 0, [], []⟩], [⟨9, []⟩]⟩).2.findUTXO [116] (((1 : Nat) : Int) - 1) =
      .ok ([⟨1, []⟩, ⟨2, []⟩, ⟨3, []⟩].getD 1 ⟨0, []⟩) := by
  refine ⟨by decide, ?_⟩
  have h := update_shifts_remaining_outputs
    (⟨[([116], [⟨1, []⟩, ⟨2, []⟩, ⟨3, []⟩])]⟩ : UTXOSet) [116]
    [⟨1, []⟩, ⟨2, []⟩, ⟨3, []⟩] 0 1
    ⟨[110], [⟨some [116], 0, [], []⟩], [⟨9, []⟩]⟩ ⟨some [116], 0, [], []⟩
    (by decide) rfl rfl (by decide) (by decide) (by decide) (by decide)
  exact h

/-! ## C2: atomicity of UTXOSet.Update -/

/-- C2 counterexample: a transaction whose second input is absent makes Update
return an error after the first input's removal has already mutated the set —
the caller does not see the index unchanged. -/
theorem update_not_atomic :
    (((⟨[([97], [⟨5, []⟩])]⟩ : UTXOSet).update
        ⟨[110], [⟨some [97], 0, [], []⟩, ⟨some [98], 0, [], []⟩], []⟩).1).isSome = true ∧
    ((⟨[([97], [⟨5, []⟩])]⟩ : UTXOSet).update
        ⟨[110], [⟨some [97], 0, [], []⟩, ⟨some [98], 0, [], []⟩], []⟩).2 ≠
      (⟨[([97], [⟨5, []⟩])]⟩ : UTXOSet) := by
  decide

/-- C2 amended: Update leaves the set unchanged only when the failure occurs on
the first removal — if the first referenced input is absent or out of range,
the error is returned with the receiver untouched (in particular for
single-input transactions). -/
theorem update_unchanged_on_first_failure
    (u : UTXOSet) (tx : Transaction) (inp : TxInput) (rest : List TxInput) (e : String)
    (hcb : tx.isCoinbase = false) (hin : tx.inputs = inp :: rest)
    (hrem : u.removeUTXO (keyOf inp.txID) inp.outIndex = .error e) :
    u.update tx = (some ("failed to remove UTXO: " ++ e), u) := by
  unfold UTXOSet.update
  rw [hcb]
  simp only [Bool.false_eq_true, if_false]
  rw [hin]
  unfold UTXOSet.updateLoop
  rw [hrem]

/-- C2 witness: the amended theorem applied to a single-input transaction whose
referenced output is absent. -/
theorem update_unchanged_on_first_failure_witness :
    ((⟨[]⟩ : UTXOSet).removeUTXO (keyOf (some [98])) 0 = .error "UTXO not found" ∧
      Transaction.isCoinbase ⟨[110], [⟨some [98], 0, [], []⟩], []⟩ = false) ∧
    (⟨[]⟩ : UTXOSet).update ⟨[110], [⟨some [98], 0, [], []⟩], []⟩ =
      (some ("failed to remove UTXO: " ++ "UTXO not found"), (⟨[]⟩ : UTXOSet)) := by
  refine ⟨by decide, ?_⟩
  exact update_unchanged_on_first_failure (⟨[]⟩ : UTXOSet)
    ⟨[110], [⟨some [98], 0, [], []⟩], []⟩ ⟨some [98], 0, [], []⟩ [] "UTXO not found"
    (by decide) rfl (by decide)

/-! ## Mining-loop lemmas -/

theorem mineLoop_all_fail (hashAt : Nat → Bytes) (target : Nat)
    (hfail : ∀ n, ¬ beNat (hashAt n) < target) :
    ∀ fuel nonce last, mineLoop hashAt target fuel nonce last =
      (nonce + fuel, if fuel = 0 then last else hashAt (nonce + fuel - 1)) := by
  intro fuel
  induction fuel with
  | zero => intro nonce last; simp [mineLoop]
  | succ f ih =>
    intro nonce last
    rw [mineLoop]
    simp only [if_neg (hfail nonce)]
    rw [ih (nonce + 1) (hashAt nonce)]
    cases f with
    | zero => simp
    | succ f' =>
      have h1 : nonce + 1 + (f' + 1) = nonce + (f' + 1 + 1) := by omega
      have h2 : nonce + 1 + (f' + 1) - 1 = nonce + (f' + 1 + 1) - 1 := by omega
      simp [h1, h2]

theorem mineLoop_finds (hashAt : Nat → Bytes) (target n : Nat)
    (hv : beNat (hashAt n) < target)
    (hleast : ∀ k, k < n → ¬ beNat (hashAt k) < target) :
    ∀ fuel nonce last, nonce ≤ n → n < nonce + fuel →
      mineLoop hashAt target fuel nonce last = (n, hashAt n) := by
  intro fuel
  induction fuel with
  | zero => intro nonce last h1 h2; omega
  | succ f ih =>
    intro nonce last h1 h2
    rw [mineLoop]
    by_cases hn : nonce = n
    · subst hn
      simp [hv]
    · have hlt : nonce < n := by omega
      simp only [if_neg (hleast nonce hlt)]
      exact ih (nonce + 1) (hashAt nonce) (by omega) (by omega)

/-! ## C5: the mining loop -/

/-- C5 counterexample: with a header whose hash never meets the target, Mine
exhausts the 32-bit nonce space and returns nonce 2^32 - 1 together with the
hash computed at the final iteration — a hash that fails the validity
predicate; no timestamp or extra-nonce widening and no restart happen. -/
theorem mine_returns_unsatisfying_hash_on_saturation :
    mineBlock (fun _ => List.replicate 32 255)
        ⟨⟨1, zeros32, zeros32, 0, 16, 0⟩, [], zeros32⟩ =
      (4294967295, List.replicate 32 255) ∧
    isValidHash (List.replicate 32 255) 16 = false := by
  constructor
  · have hfail : ∀ k, ¬ beNat (hashBlockHeader (fun _ => List.replicate 32 255)
        { (⟨⟨1, zeros32, zeros32, 0, 16, 0⟩, [], zeros32⟩ : Block).header with nonce := k }) <
        powTarget ((⟨⟨1, zeros32, zeros32, 0, 16, 0⟩, [], zeros32⟩ :
          Block).header.difficultyTarget) := by
      intro k
      show ¬ beNat (List.replicate 32 255) < powTarget 16
      decide
    have h := mineLoop_all_fail _ _ hfail MaxNonce 0 []
    unfold mineBlock mine
    rw [h]
    decide
  · decide

/-- C5 amended: Mine iterates the nonce from 0 upward and, whenever some nonce
below 2^32 - 1 satisfies the predicate, returns the first such nonce with its
hash, which satisfies the proof-of-work validity predicate; when no nonce
below 2^32 - 1 satisfies it, Mine instead returns nonce 2^32 - 1 and the last
computed hash without widening the search or restarting. -/
theorem mine_finds_first_valid_nonce (sha : Bytes → Bytes) (b : Block) (n : Nat)
    (hv : beNat (hashBlockHeader sha { b.header with nonce := n }) <
      powTarget b.header.difficultyTarget)
    (hn : n < MaxNonce)
    (hleast : ∀ k, k < n → ¬ beNat (hashBlockHeader sha { b.header with nonce := k }) <
      powTarget b.header.difficultyTarget) :
    mineBlock sha b = (n, hashBlockHeader sha { b.header with nonce := n }) ∧
    isValidHash (mineBlock sha b).2 b.header.difficultyTarget = true := by
  have h := mineLoop_finds
    (fun k => hashBlockHeader sha { b.header with nonce := k })
    (powTarget b.header.difficultyTarget) n hv hleast MaxNonce 0 []
    (Nat.zero_le n) (by omega)
  have hmain : mineBlock sha b = (n, hashBlockHeader sha { b.header with nonce := n }) := by
    unfold mineBlock mine
    exact h
  refine ⟨hmain, ?_⟩
  rw [hmain]
  unfold isValidHash
  simpa using hv

/-- C5 witness: a hash routine that returns the empty digest lets nonce 0
succeed immediately. -/
theorem mine_finds_first_valid_nonce_witness :
    (beNat (hashBlockHeader (fun _ => []) { (⟨⟨1, zeros32, zeros32, 0, 16, 0⟩, [], zeros32⟩ :
        Block).header with nonce := 0 }) < powTarget 16 ∧ 0 < MaxNonce) ∧
    mineBlock (fun _ => []) ⟨⟨1, zeros32, zeros32, 0, 16, 0⟩, [], zeros32⟩ =
      (0, hashBlockHeader (fun _ => []) { (⟨⟨1, zeros32, zeros32, 0, 16, 0⟩, [], zeros32⟩ :
        Block).header with nonce := 0 }) ∧
    isValidHash (mineBlock (fun _ => []) ⟨⟨1, zeros32, zeros32, 0, 16, 0⟩, [], zeros32⟩).2
      16 = true := by
  refine ⟨by decide, ?_⟩
  exact mine_finds_first_valid_nonce (fun _ => [])
    ⟨⟨1, zeros32, zeros32, 0, 16, 0⟩, [], zeros32⟩ 0 (by decide) (by decide)
    (fun k hk => absurd hk (by omega))

/-! ## C4: the proof-of-work validity predicate -/

/-- C4: for difficulty bit counts in [8, 32] a header hash is judged valid
exactly when its big-endian 256-bit value is strictly below 2^(256 - b), and
block validation derives the target from the block's own difficulty field —
its verdict never depends on the engine's in-memory difficulty. -/
theorem pow_valid_iff_below_own_target (sha : Bytes → Bytes) (b : Block) (bits : Nat)
    (hb : b.header.difficultyTarget = bits) (h8 : 8 ≤ bits) (h32 : bits ≤ 32) :
    (powValidate sha b = true ↔
      beNat (hashBlockHeader sha b.header) < 2 ^ (256 - bits)) ∧
    (∀ (blocks : List Block) (d₁ d₂ : Nat) (now : Int),
      Blockchain.validateBlock sha ⟨blocks, d₁⟩ now b =
        Blockchain.validateBlock sha ⟨blocks, d₂⟩ now b) := by
  constructor
  · unfold powValidate powTarget
    rw [hb, Nat.shiftLeft_eq, one_mul]
    simp
  · intro blocks d₁ d₂ now
    rfl

/-- C4 witness: a constant zero digest validates at difficulty 16. -/
theorem pow_valid_iff_below_own_target_witness :
    ((⟨⟨1, zeros32, zeros32, 0, 16, 0⟩, [], zeros32⟩ :
        Block).header.difficultyTarget = 16 ∧ 8 ≤ 16 ∧ 16 ≤ 32) ∧
    (powValidate (fun _ => zeros32) ⟨⟨1, zeros32, zeros32, 0, 16, 0⟩, [], zeros32⟩ = true ↔
      beNat (hashBlockHeader (fun _ => zeros32)
        (⟨⟨1, zeros32, zeros32, 0, 16, 0⟩, [], zeros32⟩ : Block).header) < 2 ^ (256 - 16)) := by
  refine ⟨by decide, ?_⟩
  exact (pow_valid_iff_below_own_target (fun _ => zeros32)
    ⟨⟨1, zeros32, zeros32, 0, 16, 0⟩, [], zeros32⟩ 16 rfl (by decide) (by decide)).1

/-! ## Merkle lemmas and C6 -/

theorem merklePairUp_length (dh : Bytes → Bytes) :
    ∀ l : List Bytes, (merklePairUp dh l).length = l.length / 2
  | [] => by simp [merklePairUp]
  | [a] => by simp [merklePairUp]
  | a :: b :: rest => by
    simp [merklePairUp, merklePairUp_length dh rest]
    omega

theorem merkleStep_length (dh : Bytes → Bytes) (l : List Bytes) (h2 : 2 ≤ l.length) :
    (merkleStep dh l).length < l.length := by
  unfold merkleStep
  by_cases hp : l.length % 2 = 1
  · rw [if_pos hp, merklePairUp_length]
    simp only [List.length_append, List.length_cons, List.length_nil]
    omega
  · rw [if_neg hp, merklePairUp_length]
    omega

theorem merkleStep_pos (dh : Bytes → Bytes) (l : List Bytes) (h2 : 2 ≤ l.length) :
    1 ≤ (merkleStep dh l).length := by
  unfold merkleStep
  by_cases hp : l.length % 2 = 1
  · rw [if_pos hp, merklePairUp_length]
    simp only [List.length_append, List.length_cons, List.length_nil]
    omega
  · rw [if_neg hp, merklePairUp_length]
    omega

theorem merkleLoopF_congr (dh : Bytes → Bytes) (l : List Bytes) (f₁ f₂ : Nat)
    (h₁ : l.length ≤ f₁) (h₂ : l.length ≤ f₂) :
    merkleLoopF dh f₁ l = merkleLoopF dh f₂ l := by
  cases f₁ with
  | zero =>
    cases f₂ with
    | zero => rfl
    | succ g₂ =>
      have hl : l.length ≤ 1 := by omega
      simp [merkleLoopF, hl]
  | succ g₁ =>
    cases f₂ with
    | zero =>
      have hl : l.length ≤ 1 := by omega
      simp [merkleLoopF, hl]
    | succ g₂ =>
      by_cases hl : l.length ≤ 1
      · simp [merkleLoopF, hl]
      · have hlt := merkleStep_length dh l (by omega)
        simp only [merkleLoopF, if_neg hl]
        exact merkleLoopF_congr dh (merkleStep dh l) g₁ g₂ (by omega) (by omega)
termination_by l.length
decreasing_by exact hlt

/-- C6: BuildMerkleRoot returns 32 zero bytes on the empty list, the single
hash itself on a singleton, and otherwise the root of one reduction step —
pair adjacent elements after duplicating the last element of an odd-length
level, each parent the double-SHA of the concatenation — repeated until one
element remains. -/
theorem merkle_root_matches_spec (dh : Bytes → Bytes) :
    buildMerkleRoot dh [] = zeros32 ∧
    (∀ h, buildMerkleRoot dh [h] = h) ∧
    (∀ l, 2 ≤ l.length →
      buildMerkleRoot dh l = buildMerkleRoot dh (merkleStep dh l)) := by
  refine ⟨by simp [buildMerkleRoot], ?_, ?_⟩
  · intro h
    simp [buildMerkleRoot, merkleLoopF]
  · intro l hl
    have hne : l ≠ [] := by
      intro hc
      rw [hc] at hl
      simp at hl
    have hse : merkleStep dh l ≠ [] := by
      have hpos := merkleStep_pos dh l hl
      intro hc
      rw [hc] at hpos
      simp at hpos
    unfold buildMerkleRoot
    rw [if_neg hne, if_neg hse]
    obtain ⟨m, hm⟩ : ∃ m, l.length = m + 1 := ⟨l.length - 1, by omega⟩
    rw [hm, merkleLoopF]
    rw [if_neg (by omega : ¬ l.length ≤ 1)]
    have hdec := merkleStep_length dh l hl
    exact merkleLoopF_congr dh (merkleStep dh l) m (merkleStep dh l).length
      (by omega) (le_refl _)

/-- C6 witness: the three clauses at concrete inputs. -/
theorem merkle_root_matches_spec_witness :
    buildMerkleRoot (fun _ => [7]) [] = zeros32 ∧
    buildMerkleRoot (fun _ => [7]) [[5]] = [5] ∧
    (2 ≤ ([[1], [2]] : List Bytes).length ∧
      buildMerkleRoot (fun _ => [7]) [[1], [2]] =
        buildMerkleRoot (fun _ => [7]) (merkleStep (fun _ => [7]) [[1], [2]])) :=
  ⟨(merkle_root_matches_spec _).1, (merkle_root_matches_spec _).2.1 [5],
    by decide, (merkle_root_matches_spec _).2.2 [[1], [2]] (by decide)⟩

/-! ## C9: header serialisation -/

theorem le_width_length (w n : Nat) : (le w n).length = w := by simp [le]

/-- C9 counterexample: the serialisation of a well-formed header (32-byte
previous hash and merkle root) is 84 bytes, not the claimed fixed 80. -/
theorem header_serialization_not_80_bytes :
    (BlockHeader.serialize ⟨1, zeros32, zeros32, 0, 16, 0⟩).length = 84 ∧
    (BlockHeader.serialize ⟨1, zeros32, zeros32, 0, 16, 0⟩).length ≠ 80 := by
  decide

/-- C9 amended: the canonical header serialisation is a fixed 84-byte string —
4-byte little-endian version, 32-byte previous hash, 32-byte merkle root,
8-byte little-endian Unix-seconds timestamp at offset 68, 4-byte little-endian
difficulty bits and nonce — and header hashing operates on exactly this
serialisation (double SHA-256 of it). -/
theorem header_serialization_spec (h : BlockHeader) (sha : Bytes → Bytes)
    (hp : h.prevBlockHash.length = 32) (hm : h.merkleRoot.length = 32) :
    (h.serialize).length = 84 ∧
    ((h.serialize).drop 68).take 8 = leI64 h.timestamp ∧
    hashBlockHeader sha h = sha (sha h.serialize) := by
  refine ⟨?_, ?_, rfl⟩
  · unfold BlockHeader.serialize
    simp [leU32, leI64, le_width_length, hp, hm]
  · unfold BlockHeader.serialize
    have hassoc : leU32 h.version ++ h.prevBlockHash ++ h.merkleRoot ++
        leI64 h.timestamp ++ leU32 h.difficultyTarget ++ leU32 h.nonce =
        (leU32 h.version ++ h.prevBlockHash ++ h.merkleRoot) ++
          (leI64 h.timestamp ++ (leU32 h.difficultyTarget ++ leU32 h.nonce)) := by
      simp [List.append_assoc]
    rw [hassoc]
    rw [List.drop_left' (by simp [leU32, le_width_length, hp, hm])]
    rw [List.take_left' (by simp [leI64, le_width_length])]

/-- C9 witness: the amended theorem at a concrete header. -/
theorem header_serialization_spec_witness :
    ((zeros32 : Bytes).length = 32 ∧ (zeros32 : Bytes).length = 32) ∧
    (BlockHeader.serialize ⟨1, zeros32, zeros32, 5, 16, 7⟩).length = 84 ∧
    ((BlockHeader.serialize ⟨1, zeros32, zeros32, 5, 16, 7⟩).drop 68).take 8 =
      leI64 (5 : Int) ∧
    hashBlockHeader (fun _ => []) ⟨1, zeros32, zeros32, 5, 16, 7⟩ =
      (fun _ => ([] : Bytes)) ((fun _ => ([] : Bytes))
        (BlockHeader.serialize ⟨1, zeros32, zeros32, 5, 16, 7⟩)) :=
  ⟨by decide, header_serialization_spec ⟨1, zeros32, zeros32, 5, 16, 7⟩
    (fun _ => []) (by decide) (by decide)⟩

/-! ## C10: GetBlock bounds and the query-surface tip accessors -/

/-- C10: GetBlock(i) succeeds exactly for 0 <= i < Height() and fails at
i = Height(); consequently GetBestBlockHash, which reads the block at index
Height(), always returns an error, and GetBlockchainInfo reports an empty
best-block hash. -/
theorem getBlock_bounds_tip_accessors (bc : Blockchain) :
    (∀ i : Int, (∃ b, bc.getBlock i = .ok b) ↔ 0 ≤ i ∧ i < bc.height) ∧
    bc.getBlock bc.height = .error "block index out of range" ∧
    getBestBlockHash bc =
      .error ("failed to get best block: " ++ "block index out of range") ∧
    getBlockchainInfoBestHash bc = "" := by
  have hfail : bc.getBlock bc.height = .error "block index out of range" := by
    unfold Blockchain.getBlock Blockchain.height
    rw [if_pos]
    right
    exact le_refl _
  refine ⟨?_, hfail, ?_, ?_⟩
  · intro i
    unfold Blockchain.getBlock Blockchain.height
    by_cases hcond : i < 0 ∨ (bc.blocks.length : Int) ≤ i
    · rw [if_pos hcond]
      constructor
      · rintro ⟨b, hb⟩
        exact absurd hb (by simp)
      · intro hrange
        omega
    · rw [if_neg hcond]
      constructor
      · intro _
        omega
      · intro _
        exact ⟨_, rfl⟩
  · unfold getBestBlockHash
    rw [hfail]
  · unfold getBlockchainInfoBestHash
    rw [hfail]

/-! ## C3: value conservation on the append path -/

/-- C3 counterexample: a block whose non-coinbase transaction spends a
1-satoshi output while emitting 100 satoshis passes ValidateBlock — with a
hash routine under which all structural checks (PoW, cached hash, merkle root,
linkage, timestamp, coinbase placement) succeed — because block validation
performs no value-conservation check. -/
theorem validateBlock_accepts_value_violation :
    Blockchain.validateBlock (fun _ => zeros32)
        ⟨[⟨⟨1, zeros32, zeros32, 0, 16, 0⟩, [], zeros32⟩], 16⟩ 0
        ⟨⟨1, zeros32, zeros32, 0, 16, 0⟩,
          [⟨[10], [⟨none, -1, [], [100]⟩], [⟨5000000000, [7]⟩]⟩,
           ⟨[11], [⟨some [9], 0, [], []⟩], [⟨100, [8]⟩]⟩], zeros32⟩ = .ok () ∧
    referencedInputSum ⟨[([9], [⟨1, [8]⟩])]⟩ [⟨some [9], 0, [], []⟩] = .ok 1 ∧
    txOutputSum ⟨[11], [⟨some [9], 0, [], []⟩], [⟨100, [8]⟩]⟩ = 100 ∧
    ¬ ((100 : Int) ≤ 1) := by
  decide

/-- C3 amended: value conservation is enforced only by the selection logic on
the send path; the append path performs no value-conservation check — the
verdict of block validation is invariant under arbitrary replacement of every
transaction output value, so a block violating Σinputs ≥ Σoutputs passes
whenever its structural checks pass. -/
theorem validateBlock_ignores_output_values (sha : Bytes → Bytes) (bc : Blockchain)
    (now : Int) (b : Block) (f : Int → Int) :
    Blockchain.validateBlock sha bc now (b.mapOutputValues f) =
      Blockchain.validateBlock sha bc now b := by
  have hpow : powValidate sha (b.mapOutputValues f) = powValidate sha b := rfl
  have hh : (b.mapOutputValues f).header = b.header := rfl
  have hha : (b.mapOutputValues f).hash = b.hash := rfl
  have hidsAux : ∀ ts : List Transaction,
      (ts.map (Transaction.mapOutputValues f)).map (fun t => t.id) =
      ts.map (fun t => t.id) := by
    intro ts
    induction ts with
    | nil => rfl
    | cons a l ih =>
      simp only [List.map_cons]
      rw [ih]
      rfl
  have hids : (b.mapOutputValues f).transactions.map (fun t => t.id) =
      b.transactions.map (fun t => t.id) := hidsAux b.transactions
  have hempty : ((b.mapOutputValues f).transactions = []) ↔ (b.transactions = []) := by
    simp [Block.mapOutputValues]
  have hhead : ((b.mapOutputValues f).transactions.headD dfltTx).isCoinbase =
      (b.transactions.headD dfltTx).isCoinbase := by
    rcases b with ⟨hdr, ts, hs⟩
    cases ts with
    | nil => rfl
    | cons a l => rfl
  have hanyAux : ∀ ts : List Transaction,
      (ts.map (Transaction.mapOutputValues f)).any (fun t => t.isCoinbase) =
      ts.any (fun t => t.isCoinbase) := by
    intro ts
    induction ts with
    | nil => rfl
    | cons a l ih =>
      simp only [List.map_cons, List.any_cons]
      rw [ih]
      rfl
  have hany : ((b.mapOutputValues f).transactions.drop 1).any (fun t => t.isCoinbase) =
      (b.transactions.drop 1).any (fun t => t.isCoinbase) := by
    rcases b with ⟨hdr, ts, hs⟩
    cases ts with
    | nil => rfl
    | cons a l => exact hanyAux l
  simp only [Blockchain.validateBlock, hpow, hh, hha, hids, hempty, hhead, hany]

/-! ## C7: signature serialisation width -/

/-- C7: the code serialises the ECDSA scalars with minimal-width big.Int.Bytes
instead of the fixed 64-byte zero-padded form the spec requires; for scalars of
unequal byte length (here r = 2^248, s = 1) the 33-byte signature splits at
half length into (2^120, 1) ≠ (r, s), so verification of a freshly produced
signature is handed the wrong scalars and fails, while the spec's fixed-width
form would round-trip exactly. -/
theorem sig_minimal_encoding_missplits :
    (signSerialize (2 ^ 248) 1).length = 33 ∧
    verifySplit (signSerialize (2 ^ 248) 1) = some (2 ^ 120, 1) ∧
    ((2 : Nat) ^ 120, (1 : Nat)) ≠ ((2 : Nat) ^ 248, (1 : Nat)) ∧
    signSerializeSpec (2 ^ 248) 1 ≠ signSerialize (2 ^ 248) 1 ∧
    (signSerializeSpec (2 ^ 248) 1).length = 64 ∧
    verifySplit (signSerializeSpec (2 ^ 248) 1) = some (2 ^ 248, 1) := by
  decide

/-! ## C8: address decoding -/

set_option maxRecDepth 100000 in
/-- C8 counterexample: the address "1Wh4bh" base58-decodes to the 5-byte string
00 14 06 e0 58 whose trailing 4 bytes are the correct double-SHA-256 checksum
of the 1-byte payload 00; DecodeAddress accepts it and returns an empty pubkey
hash, although the decoded length 5 is far below 25 = 1 + 20 + 4 — the code
only requires 1 + 4 bytes. -/
theorem decodeAddress_accepts_short_address :
    base58Decode "1Wh4bh" = .ok [0, 20, 6, 224, 88] ∧
    ([0, 20, 6, 224, 88] : Bytes).length < 25 ∧
    decodeAddress "1Wh4bh" = .ok [] ∧
    ¬ (([] : Bytes).length = 20) := by
  decide

/-- C8 amended: DecodeAddress fails on base58 error, on decoded length shorter
than 5 = 1 + 4 (version byte + checksum; not 25), or on checksum mismatch
against the first 4 bytes of the double SHA-256 of the leading payload; on
success it returns the payload with the version byte stripped, which is the
20-byte pubkey hash only when the decoded input is exactly 25 bytes. -/
theorem decodeAddress_spec (s : String) :
    (∀ e, base58Decode s = .error e →
      decodeAddress s = .error ("failed to decode address: " ++ e)) ∧
    (∀ decoded : Bytes, base58Decode s = .ok decoded →
      (decoded.length < 5 → decodeAddress s = .error "invalid address length") ∧
      (5 ≤ decoded.length →
        checksum (decoded.take (decoded.length - 4)) ≠ decoded.drop (decoded.length - 4) →
        decodeAddress s = .error "invalid address checksum") ∧
      (5 ≤ decoded.length →
        checksum (decoded.take (decoded.length - 4)) = decoded.drop (decoded.length - 4) →
        decodeAddress s = .ok ((decoded.take (decoded.length - 4)).drop 1))) := by
  constructor
  · intro e he
    unfold decodeAddress
    rw [he]
  · intro d hd
    refine ⟨?_, ?_, ?_⟩
    · intro hlen
      unfold decodeAddress
      rw [hd]
      dsimp only
      rw [if_pos hlen]
    · intro hlen hck
      unfold decodeAddress
      rw [hd]
      dsimp only
      rw [if_neg (by omega : ¬ d.length < 5)]
      rw [if_neg hck]
    · intro hlen hck
      unfold decodeAddress
      rw [hd]
      dsimp only
      rw [if_neg (by omega : ¬ d.length < 5)]
      rw [if_pos hck]

set_option maxRecDepth 100000 in
/-- C8 witness: the amended theorem evaluated on the 5-byte address accepted by
the code. -/
theorem decodeAddress_spec_witness :
    (base58Decode "1Wh4bh" = .ok [0, 20, 6, 224, 88] ∧
      5 ≤ ([0, 20, 6, 224, 88] : Bytes).length ∧
      checksum (([0, 20, 6, 224, 88] : Bytes).take
          (([0, 20, 6, 224, 88] : Bytes).length - 4)) =
        ([0, 20, 6, 224, 88] : Bytes).drop (([0, 20, 6, 224, 88] : Bytes).length - 4)) ∧
    decodeAddress "1Wh4bh" =
      .ok ((([0, 20, 6, 224, 88] : Bytes).take
        (([0, 20, 6, 224, 88] : Bytes).length - 4)).drop 1) := by
  refine ⟨⟨by decide, by decide, by decide⟩, ?_⟩
  exact ((decodeAddress_spec "1Wh4bh").2 [0, 20, 6, 224, 88] (by decide)).2.2
    (by decide) (by decide)

end ICoin
